import Mathlib

/-!
Shallow embedding of `src/autodiff/tape.rs` from RustQuant: the Wengert-list
tape used for reverse-mode automatic differentiation, together with proofs of
the specification's testable properties.

The Rust `Tape` stores its nodes in `RefCell<Vec<Node>>`; every method runs
sequentially and single-threadedly, so the embedding is pure state passing:
each mutating method takes the tape and returns the updated tape (paired with
the Rust return value, when there is one).

Rust `f64` is modelled by `ℚ`: the tape never performs arithmetic on the
stored partials — they are only written, copied, and reset to the literal
`0.0` — so any type with decidable equality and a zero represents the stored
values exactly; IEEE rounding can never be observed through this interface.
-/

/-- Stand-in for Rust `f64` (see the module comment: stored opaquely, never
combined arithmetically by the tape). -/
abbrev F64 := ℚ

/-- One entry of the Wengert list (`Node` in `tape.rs` / `node.rs`): two
partial-derivative slots and two parent-index slots, in operand order. -/
structure Node where
  partials : F64 × F64
  parents : Nat × Nat
deriving DecidableEq, Repr

/-- The tape (`struct Tape`): an ordered growable sequence of nodes.
The `RefCell` wrapper is runtime borrow bookkeeping with no effect on the
sequential semantics, so `nodes` is the plain list. -/
structure Tape where
  nodes : List Node
deriving DecidableEq, Repr

/-- The arity tag consumed by `Tape::push` (`enum Operation`). -/
inductive Operation where
  | Nullary : Operation
  | Unary : Operation
  | Binary : Operation
deriving DecidableEq, Repr

/-- The `Variable` handle returned by `var`/`vars`: a value paired with a tape
index. (The Rust struct also holds a reference back to the tape itself; that
back reference carries no data and is dropped in the embedding.) -/
structure Variable where
  value : F64
  index : Nat
deriving DecidableEq, Repr

namespace Tape

/-- `Tape::new` — an empty tape (`Default::default` builds the same value). -/
def new : Tape := ⟨[]⟩

/-- `Tape::len` — current node count. -/
def len (t : Tape) : Nat := t.nodes.length

/-- `Tape::is_empty` — whether the node count is zero. -/
def is_empty (t : Tape) : Bool := t.nodes.length == 0

/-- `Tape::clear` — removes all nodes. -/
def clear (_ : Tape) : Tape := ⟨[]⟩

/-- `Tape::zero` — resets every node's `partials` to `[0.0, 0.0]` in place. -/
def zero (t : Tape) : Tape :=
  ⟨t.nodes.map fun node => { node with partials := (0, 0) }⟩

/-- `Tape::push_nullary` — appends `Node { partials: [0.0, 0.0],
parents: [len, len] }` and returns the pre-push length `len`. -/
def push_nullary (t : Tape) : Tape × Nat :=
  let len := t.nodes.length
  (⟨t.nodes ++ [{ partials := (0, 0), parents := (len, len) }]⟩, len)

/-- `Tape::push_unary` — appends `Node { partials: [partial0, 0.0],
parents: [parent0, len] }` and returns the pre-push length `len`. -/
def push_unary (t : Tape) (parent0 : Nat) (partial0 : F64) : Tape × Nat :=
  let len := t.nodes.length
  (⟨t.nodes ++ [{ partials := (partial0, 0), parents := (parent0, len) }]⟩, len)

/-- `Tape::push_binary` — appends `Node { partials: [partial0, partial1],
parents: [parent0, parent1] }` and returns the pre-push length `len`. -/
def push_binary (t : Tape) (parent0 : Nat) (partial0 : F64)
    (parent1 : Nat) (partial1 : F64) : Tape × Nat :=
  let len := t.nodes.length
  (⟨t.nodes ++ [{ partials := (partial0, partial1),
                  parents := (parent0, parent1) }]⟩, len)

/-- `Tape::push` — single dispatch entry point: builds the node according to
the arity tag (matching the Rust `match operation`), appends it, and returns
the pre-push length. -/
def push (t : Tape) (operation : Operation)
    (parents : Nat × Nat) (partials : F64 × F64) : Tape × Nat :=
  let len := t.nodes.length
  let node : Node :=
    match operation with
    | Operation.Nullary => { partials := (0, 0), parents := (len, len) }
    | Operation.Unary => { partials := (partials.1, 0), parents := (parents.1, len) }
    | Operation.Binary => { partials := (partials.1, partials.2),
                            parents := (parents.1, parents.2) }
  (⟨t.nodes ++ [node]⟩, len)

/-- `Tape::var` — records one nullary node and returns a `Variable` bound to
the supplied value and the new index. -/
def var (t : Tape) (value : F64) : Tape × Variable :=
  let p := t.push_nullary
  (p.1, { value := value, index := p.2 })

/-- `Tape::vars` — `values.iter().map(|&val| self.var(val)).collect()`: one
`var` call per input value, in input order, threading the tape state. -/
def vars (t : Tape) : List F64 → Tape × List Variable
  | [] => (t, [])
  | v :: rest =>
    let p := t.var v
    let q := p.1.vars rest
    (q.1, p.2 :: q.2)

end Tape

/-- One append call against the tape, covering all four public push entry
points with arbitrary caller-supplied arguments. -/
inductive PushOp where
  | nullary : PushOp
  | unary (parent0 : Nat) (d0 : F64) : PushOp
  | binary (parent0 : Nat) (d0 : F64) (parent1 : Nat) (d1 : F64) : PushOp
  | dispatch (operation : Operation) (ps : Nat × Nat) (ds : F64 × F64) : PushOp
deriving DecidableEq, Repr

/-- Execute one append call on a tape. -/
def PushOp.apply (op : PushOp) (t : Tape) : Tape × Nat :=
  match op with
  | .nullary => t.push_nullary
  | .unary p d => t.push_unary p d
  | .binary p0 d0 p1 d1 => t.push_binary p0 d0 p1 d1
  | .dispatch oper ps ds => t.push oper ps ds

/-- Run a sequence of append calls, collecting the returned indices. -/
def runOps (t : Tape) : List PushOp → Tape × List Nat
  | [] => (t, [])
  | op :: rest =>
    let p := op.apply t
    let q := runOps p.1 rest
    (q.1, p.2 :: q.2)

/-- The DAG invariant: every node's two parent entries are at most its own
index. -/
def Tape.acyclic (t : Tape) : Prop :=
  ∀ i : Fin t.nodes.length,
    (t.nodes.get i).parents.1 ≤ i.val ∧ (t.nodes.get i).parents.2 ≤ i.val

instance (t : Tape) : Decidable t.acyclic :=
  inferInstanceAs (Decidable (∀ _ : Fin _, _ ∧ _))

/-- Caller contract for one append: every caller-supplied parent index is at
most the tape length at the time of the call (the new node's index). -/
def PushOp.parentsValid : PushOp → Nat → Prop
  | .nullary, _ => True
  | .unary p _, n => p ≤ n
  | .binary p0 _ p1 _, n => p0 ≤ n ∧ p1 ≤ n
  | .dispatch .Nullary _ _, _ => True
  | .dispatch .Unary ps _, n => ps.1 ≤ n
  | .dispatch .Binary ps _, n => ps.1 ≤ n ∧ ps.2 ≤ n

instance : (op : PushOp) → (n : Nat) → Decidable (op.parentsValid n)
  | .nullary, _ => .isTrue trivial
  | .unary p _, n => inferInstanceAs (Decidable (p ≤ n))
  | .binary p0 _ p1 _, n => inferInstanceAs (Decidable (p0 ≤ n ∧ p1 ≤ n))
  | .dispatch .Nullary _ _, _ => .isTrue trivial
  | .dispatch .Unary ps _, n => inferInstanceAs (Decidable (ps.1 ≤ n))
  | .dispatch .Binary ps _, n => inferInstanceAs (Decidable (ps.1 ≤ n ∧ ps.2 ≤ n))

/-- A sequence of append calls respects the caller contract when each call's
parents are valid for the length the tape has reached at that point. -/
def validSeq : Nat → List PushOp → Prop
  | _, [] => True
  | n, op :: rest => op.parentsValid n ∧ validSeq (n + 1) rest

instance instDecidableValidSeq : (n : Nat) → (ops : List PushOp) →
    Decidable (validSeq n ops)
  | _, [] => .isTrue trivial
  | n, _op :: rest =>
    have : Decidable (validSeq (n + 1) rest) := instDecidableValidSeq (n + 1) rest
    inferInstanceAs (Decidable (_ ∧ _))

-- ~~~~~~~~~~~~~~~~~~~~~~~~~~~~~~~~~~~~~~~~~~~~~~~~~~~~~~~~~~~~~~~~~~~~~~~~~~~~
-- Helper lemmas shared by the claim theorems.
-- ~~~~~~~~~~~~~~~~~~~~~~~~~~~~~~~~~~~~~~~~~~~~~~~~~~~~~~~~~~~~~~~~~~~~~~~~~~~~

/-- Every append call returns the pre-push length. -/
lemma PushOp.apply_snd (op : PushOp) (t : Tape) : (op.apply t).2 = t.len := by
  cases op with
  | nullary => rfl
  | unary p d => rfl
  | binary p0 d0 p1 d1 => rfl
  | dispatch oper ps ds => cases oper <;> rfl

/-- Every append call appends exactly one node. -/
lemma PushOp.apply_len (op : PushOp) (t : Tape) :
    (op.apply t).1.len = t.len + 1 := by
  cases op with
  | nullary => simp [apply, Tape.push_nullary, Tape.len]
  | unary p d => simp [apply, Tape.push_unary, Tape.len]
  | binary p0 d0 p1 d1 => simp [apply, Tape.push_binary, Tape.len]
  | dispatch oper ps ds => cases oper <;> simp [apply, Tape.push, Tape.len]

/-- Every append call leaves the existing prefix of nodes untouched. -/
lemma PushOp.apply_take (op : PushOp) (t : Tape) :
    (op.apply t).1.nodes.take t.len = t.nodes := by
  have h : ∀ nd : Node, (t.nodes ++ [nd]).take t.len = t.nodes := by
    intro nd
    simp [Tape.len, List.take_left]
  cases op with
  | nullary => exact h _
  | unary p d => exact h _
  | binary p0 d0 p1 d1 => exact h _
  | dispatch oper ps ds => cases oper <;> exact h _

/-- Characterisation of `runOps`: the returned indices are consecutive
starting at the initial length, and the final length adds the number of
calls. -/
lemma runOps_spec (ops : List PushOp) : ∀ t : Tape,
    (runOps t ops).2 = (List.range ops.length).map (· + t.len) ∧
    (runOps t ops).1.len = t.len + ops.length := by
  induction ops with
  | nil => intro t; simp [runOps]
  | cons op rest ih =>
    intro t
    have hlen := op.apply_len t
    have hsnd := op.apply_snd t
    obtain ⟨ih1, ih2⟩ := ih (op.apply t).1
    constructor
    · simp only [runOps, List.length_cons, List.range_succ_eq_map,
        List.map_cons, List.map_map]
      refine congrArg₂ _ (by simpa using hsnd) ?_
      rw [ih1, hlen]
      refine List.map_congr_left fun k _ => ?_
      simp [Function.comp, Nat.succ_eq_add_one]
      omega
    · simp only [runOps, List.length_cons]
      rw [ih2, hlen]
      omega

-- ~~~~~~~~~~~~~~~~~~~~~~~~~~~~~~~~~~~~~~~~~~~~~~~~~~~~~~~~~~~~~~~~~~~~~~~~~~~~
-- Claim theorems.
-- ~~~~~~~~~~~~~~~~~~~~~~~~~~~~~~~~~~~~~~~~~~~~~~~~~~~~~~~~~~~~~~~~~~~~~~~~~~~~

/-- C1: for every sequence of N push operations (any mix of `push_nullary`,
`push_unary`, `push_binary`, `push`) executed starting from an empty tape, the
k-th operation (0-based) returns index k, and `len()` afterwards equals N. -/
theorem C1_monotonic_indexing (ops : List PushOp) :
    (runOps Tape.new ops).2 = List.range ops.length ∧
    (runOps Tape.new ops).1.len = ops.length := by
  obtain ⟨h1, h2⟩ := runOps_spec ops Tape.new
  refine ⟨?_, by simpa [Tape.new, Tape.len] using h2⟩
  simpa [Tape.new, Tape.len] using h1

/-- C2: after `push_nullary()` the newly appended node has both parents equal
to its own index (the returned index) and both partials `0.0`; after
`push_unary(p, d)` the new node has parents `[p, self_index]` and partials
`[d, 0.0]`; after `push_binary(p0, d0, p1, d1)` it has parents `[p0, p1]` and
partials `[d0, d1]`. -/
theorem C2_arity_shape (t : Tape) (p p0 p1 : Nat) (d d0 d1 : F64) :
    (t.push_nullary).1.nodes.getLast? =
      some { partials := (0, 0),
             parents := ((t.push_nullary).2, (t.push_nullary).2) } ∧
    (t.push_unary p d).1.nodes.getLast? =
      some { partials := (d, 0), parents := (p, (t.push_unary p d).2) } ∧
    (t.push_binary p0 d0 p1 d1).1.nodes.getLast? =
      some { partials := (d0, d1), parents := (p0, p1) } := by
  refine ⟨?_, ?_, ?_⟩ <;>
    simp [Tape.push_nullary, Tape.push_unary, Tape.push_binary]

/-- C3: `push(Operation::Nullary, parents, partials)` has the same effect and
return value as `push_nullary()` for any argument arrays;
`push(Operation::Unary, [p, x], [d, y])` is equivalent to `push_unary(p, d)`
for any `x`, `y`; `push(Operation::Binary, [p0, p1], [d0, d1])` is equivalent
to `push_binary(p0, d0, p1, d1)`. -/
theorem C3_dispatch_equivalence (t : Tape) (ps : Nat × Nat) (ds : F64 × F64)
    (p x p0 p1 : Nat) (d y d0 d1 : F64) :
    t.push Operation.Nullary ps ds = t.push_nullary ∧
    t.push Operation.Unary (p, x) (d, y) = t.push_unary p d ∧
    t.push Operation.Binary (p0, p1) (d0, d1) = t.push_binary p0 d0 p1 d1 :=
  ⟨rfl, rfl, rfl⟩

/-- Appending one node whose parents are at most the old length preserves the
DAG invariant. -/
lemma acyclic_concat (t : Tape) (nd : Node) (ht : t.acyclic)
    (h1 : nd.parents.1 ≤ t.len) (h2 : nd.parents.2 ≤ t.len) :
    Tape.acyclic ⟨t.nodes ++ [nd]⟩ := by
  intro i
  have hi : i.val < t.nodes.length + 1 := by simpa using i.isLt
  rcases Nat.lt_or_ge i.val t.nodes.length with hlt | hge
  · have hg : (Tape.mk (t.nodes ++ [nd])).nodes.get i = t.nodes.get ⟨i.val, hlt⟩ := by
      simp [List.get_eq_getElem, List.getElem_append_left, hlt]
    rw [hg]
    exact ht ⟨i.val, hlt⟩
  · have heq : i.val = t.nodes.length := by omega
    have hg : (Tape.mk (t.nodes ++ [nd])).nodes.get i = nd := by
      simp [List.get_eq_getElem, heq]
    rw [hg]
    exact ⟨heq ▸ h1, heq ▸ h2⟩

/-- Any single append respecting the caller contract preserves the DAG
invariant. -/
lemma apply_acyclic (op : PushOp) (t : Tape) (ht : t.acyclic)
    (hv : op.parentsValid t.len) : (op.apply t).1.acyclic := by
  cases op with
  | nullary => exact acyclic_concat t _ ht (Nat.le_refl _) (Nat.le_refl _)
  | unary p d => exact acyclic_concat t _ ht hv (Nat.le_refl _)
  | binary p0 d0 p1 d1 => exact acyclic_concat t _ ht hv.1 hv.2
  | dispatch oper ps ds =>
    cases oper with
    | Nullary => exact acyclic_concat t _ ht (Nat.le_refl _) (Nat.le_refl _)
    | Unary => exact acyclic_concat t _ ht hv (Nat.le_refl _)
    | Binary => exact acyclic_concat t _ ht hv.1 hv.2

/-- Running a contract-respecting sequence of appends preserves the DAG
invariant. -/
lemma runOps_acyclic (ops : List PushOp) : ∀ t : Tape, t.acyclic →
    validSeq t.len ops → (runOps t ops).1.acyclic := by
  induction ops with
  | nil => intro t ht _; exact ht
  | cons op rest ih =>
    intro t ht hv
    obtain ⟨hv1, hv2⟩ := hv
    have h2 : validSeq (op.apply t).1.len rest := by
      rw [op.apply_len t]; exact hv2
    exact ih (op.apply t).1 (apply_acyclic op t ht hv1) h2

/-- C4 counterexample: the claim quantifies over any caller-supplied
arguments, but `push_unary(5, 0.0)` on the empty tape produces the node at
index 0 with first parent entry 5, and 5 > 0: the code never validates
parent indices. -/
theorem C4_counterexample :
    (Tape.new.push_unary 5 0).2 = 0 ∧
    (Tape.new.push_unary 5 0).1.nodes.getLast? =
      some { partials := (0, 0), parents := (5, 0) } ∧
    ¬ (Tape.new.push_unary 5 0).1.acyclic := by
  refine ⟨rfl, by decide, by decide⟩

/-- C4 (amended): for every sequence of push calls starting from the empty
tape in which each call's caller-supplied parent indices are at most the tape
length at the time of that call (the new node's index), every node at index i
of the resulting tape has both parent entries ≤ i; the nullary forms need no
restriction. -/
theorem C4_acyclic_of_validSeq (ops : List PushOp)
    (h : validSeq Tape.new.len ops) : (runOps Tape.new ops).1.acyclic :=
  runOps_acyclic ops Tape.new (fun i => absurd i.isLt (by simp [Tape.new])) h

/-- Witness for the amended C4 at a concrete contract-respecting sequence. -/
theorem C4_acyclic_of_validSeq_witness :
    validSeq Tape.new.len
      [PushOp.nullary, PushOp.unary 0 1, PushOp.binary 0 1 1 2] ∧
    (runOps Tape.new
      [PushOp.nullary, PushOp.unary 0 1, PushOp.binary 0 1 1 2]).1.acyclic :=
  ⟨by decide, C4_acyclic_of_validSeq _ (by decide)⟩

/-- C5: `zero()` leaves `len()` unchanged and every node's parents unchanged,
sets both partials entries of every node to `0.0`, and calling it twice in a
row produces the same tape as calling it once. -/
theorem C5_zero_preserves_topology (t : Tape) (i : Nat) :
    t.zero.len = t.len ∧
    (t.zero.nodes[i]?).map Node.parents = (t.nodes[i]?).map Node.parents ∧
    (∀ nd ∈ t.zero.nodes, nd.partials = (0, 0)) ∧
    t.zero.zero = t.zero := by
  refine ⟨by simp [Tape.zero, Tape.len], ?_, ?_, ?_⟩
  · rcases h : t.nodes[i]? with _ | nd <;>
      simp [Tape.zero, List.getElem?_map, h]
  · intro nd hnd
    simp only [Tape.zero, List.mem_map] at hnd
    obtain ⟨m, _, rfl⟩ := hnd
    rfl
  · simp only [Tape.zero, List.map_map]
    exact congrArg Tape.mk (List.map_congr_left fun nd _ => rfl)

/-- C6: after `clear()` the tape has `len() == 0` and `is_empty() == true`,
and a `push_nullary()` performed immediately afterwards returns index 0. -/
theorem C6_clear_resets (t : Tape) :
    t.clear.len = 0 ∧ t.clear.is_empty = true ∧ t.clear.push_nullary.2 = 0 :=
  ⟨rfl, rfl, rfl⟩

/-- One `var` call appends exactly one node. -/
lemma Tape.var_len (t : Tape) (v : F64) : (t.var v).1.len = t.len + 1 := by
  simp [Tape.var, Tape.push_nullary, Tape.len]

/-- `vars` appends one node per input value and returns one `Variable` per
input value. -/
lemma vars_len (values : List F64) : ∀ t : Tape,
    (t.vars values).1.len = t.len + values.length ∧
    ((t.vars values).2).length = values.length := by
  induction values with
  | nil => intro t; simp [Tape.vars]
  | cons v rest ih =>
    intro t
    obtain ⟨ih1, ih2⟩ := ih (t.var v).1
    refine ⟨?_, ?_⟩
    · simp only [Tape.vars, List.length_cons]
      rw [ih1, Tape.var_len]
      omega
    · simp only [Tape.vars, List.length_cons, ih2]

/-- The i-th `Variable` returned by `vars` has index (initial length + i) and
carries the i-th input value; out-of-range positions are empty on both
sides. -/
lemma vars_get (values : List F64) : ∀ (t : Tape) (i : Nat),
    (((t.vars values).2)[i]?).map Variable.index =
      (values[i]?).map (fun _ => t.len + i) ∧
    (((t.vars values).2)[i]?).map Variable.value = values[i]? := by
  induction values with
  | nil => intro t i; simp [Tape.vars]
  | cons v rest ih =>
    intro t i
    cases i with
    | zero => simp [Tape.vars, Tape.var, Tape.push_nullary, Tape.len]
    | succ j =>
      obtain ⟨ih1, ih2⟩ := ih (t.var v).1 j
      have hlen : (t.var v).1.len = t.len + 1 := Tape.var_len t v
      refine ⟨?_, ?_⟩
      · simp only [Tape.vars, List.getElem?_cons_succ]
        rw [ih1, hlen]
        have hn : t.len + 1 + j = t.len + (j + 1) := by omega
        rw [hn]
      · simp only [Tape.vars, List.getElem?_cons_succ]
        exact ih2

/-- C7: for a tape of length L, `vars(values)` returns one `Variable` per
value in input order, the i-th returned `Variable` having index L + i and the
i-th supplied value; `vars` is the sequential composition of one `var` call
per value (the last two conjuncts are its recursion equations). -/
theorem C7_vars_batch (t : Tape) (values : List F64) (i : Nat) (v : F64) :
    ((t.vars values).2).length = values.length ∧
    (((t.vars values).2)[i]?).map Variable.index =
      (values[i]?).map (fun _ => t.len + i) ∧
    (((t.vars values).2)[i]?).map Variable.value = values[i]? ∧
    t.vars [] = (t, []) ∧
    t.vars (v :: values) =
      (((t.var v).1.vars values).1, (t.var v).2 :: ((t.var v).1.vars values).2) :=
  ⟨(vars_len values t).2, (vars_get values t i).1, (vars_get values t i).2,
    rfl, rfl⟩

/-- C8: every append entry point is total: for every tape state and all
argument values (including out-of-range parent indices) it appends a node and
returns the pre-push length as the new index. -/
theorem C8_push_total (op : PushOp) (t : Tape) :
    (op.apply t).1.len = t.len + 1 ∧ (op.apply t).2 = t.len :=
  ⟨op.apply_len t, op.apply_snd t⟩

/-- C9: every push operation increases `len()` by exactly one and leaves every
previously stored node completely unchanged: the old tape is exactly the
prefix of the new one. -/
theorem C9_push_frame (op : PushOp) (t : Tape) :
    (op.apply t).1.len = t.len + 1 ∧
    (op.apply t).1.nodes.take t.len = t.nodes :=
  ⟨op.apply_len t, op.apply_take t⟩

/-- C10: `vars` on the empty input returns the tape unchanged with an empty
result, and in general returns exactly one `Variable` per input value. -/
theorem C10_vars_length (t : Tape) (values : List F64) :
    t.vars [] = (t, []) ∧ ((t.vars values).2).length = values.length :=
  ⟨rfl, (vars_len values t).2⟩
